import Mathlib

/-!
Verification development for the `textencoding` simple-encoding module
(`pdf/internal/textencoding/simple.go`).

Go values are embedded as follows: `byte` and `rune` become `Nat`
(all runes appearing in this module are non-negative), Go maps become
association lists in iteration order (keys distinct), fallible results
become pairs with a `Bool` flag exactly as in the source, and the
`transform.Transformer` error result becomes `Option TErr`.
-/

set_option maxRecDepth 100000

namespace UniPdf

/-- The two sentinel errors of the `golang.org/x/text/transform` protocol:
`transform.ErrShortDst` and `transform.ErrShortSrc`. A `none` error is Go's
`nil`. -/
inductive TErr where
  | shortDst
  | shortSrc
deriving DecidableEq, Repr

/-- A Go `map[Nat]Nat` in iteration order: an association list. -/
abbrev GoMap := List (Nat × Nat)

/-- Go map read `v, ok := m[k]`: `some v` when the key is present. -/
def lookupList : GoMap → Nat → Option Nat
  | [], _ => none
  | (k, v) :: t, x => if x = k then some v else lookupList t x

/-- Go map assignment `m[k] = v`: replaces the binding of `k` if present,
otherwise appends it. -/
def mapInsert : GoMap → Nat → Nat → GoMap
  | [], k, v => [(k, v)]
  | (k0, v0) :: t, k, v => if k = k0 then (k0, v) :: t else (k0, v0) :: mapInsert t k v

/-- `utf8.RuneError` (U+FFFD), the Unicode replacement character. -/
def runeError : Nat := 0xfffd

/-- Modelled from the spec: `MissingCodeRune` is declared outside this file.
Per the spec's glossary it is the "stand-in Unicode value representing
'no character'", used as decode fallback and as an overridable mapping key:
the Unicode replacement character U+FFFD. -/
def MissingCodeRune : Nat := 0xfffd

/-- Classification of a leading byte, the `first` table of Go's
`unicode/utf8`: ASCII, invalid, or the start of a `sz`-byte sequence whose
second byte must lie in `[lo, hi]`. -/
inductive U8Class where
  | ascii
  | invalid
  | multi (sz lo hi : Nat)
deriving DecidableEq, Repr

/-- Go `unicode/utf8`'s `first` table together with `acceptRanges`,
expressed by the byte ranges the table encodes. -/
def utf8First (b : Nat) : U8Class :=
  if b < 0x80 then .ascii
  else if b < 0xc2 then .invalid
  else if b < 0xe0 then .multi 2 0x80 0xbf
  else if b = 0xe0 then .multi 3 0xa0 0xbf
  else if b < 0xed then .multi 3 0x80 0xbf
  else if b = 0xed then .multi 3 0x80 0x9f
  else if b < 0xf0 then .multi 3 0x80 0xbf
  else if b = 0xf0 then .multi 4 0x90 0xbf
  else if b < 0xf4 then .multi 4 0x80 0xbf
  else if b = 0xf4 then .multi 4 0x80 0x8f
  else .invalid

/-- Go `utf8.DecodeRune`: the decoded rune and the number of bytes consumed.
Checks are performed in the source's order: length before the second byte,
second byte before the size-2 return, and so on. -/
def utf8DecodeRune : List Nat → Nat × Nat
  | [] => (runeError, 0)
  | p0 :: rest =>
    match utf8First p0 with
    | .ascii => (p0, 1)
    | .invalid => (runeError, 1)
    | .multi sz lo hi =>
      if (p0 :: rest).length < sz then (runeError, 1)
      else
        let b1 := rest.getD 0 0
        if b1 < lo ∨ hi < b1 then (runeError, 1)
        else if sz ≤ 2 then ((p0 % 0x20) * 64 + b1 % 0x40, 2)
        else
          let b2 := rest.getD 1 0
          if b2 < 0x80 ∨ 0xbf < b2 then (runeError, 1)
          else if sz ≤ 3 then ((p0 % 0x10) * 4096 + (b1 % 0x40) * 64 + b2 % 0x40, 3)
          else
            let b3 := rest.getD 2 0
            if b3 < 0x80 ∨ 0xbf < b3 then (runeError, 1)
            else ((p0 % 0x8) * 262144 + (b1 % 0x40) * 4096 + (b2 % 0x40) * 64 + b3 % 0x40, 4)

/-- Go `utf8.FullRune`: whether the buffer begins with a full UTF-8 encoding
of a rune (an invalid prefix counts as full, since decoding it errors
without needing more bytes). -/
def utf8FullRune : List Nat → Bool
  | [] => false
  | p0 :: rest =>
    match utf8First p0 with
    | .ascii => true
    | .invalid => true
    | .multi sz lo hi =>
      if sz ≤ (p0 :: rest).length then true
      else
        match rest with
        | [] => false
        | b1 :: rest2 =>
          if b1 < lo ∨ hi < b1 then true
          else
            match rest2 with
            | [] => false
            | b2 :: _ => if b2 < 0x80 ∨ 0xbf < b2 then true else false

/-- Go `utf8.EncodeRune`: the bytes written for a rune. Surrogates and
out-of-range values encode as `RuneError` (three bytes `EF BF BD`). -/
def utf8EncodeRune (r : Nat) : List Nat :=
  if r ≤ 0x7f then [r]
  else if r ≤ 0x7ff then [0xc0 + r / 64, 0x80 + r % 64]
  else if 0x10ffff < r ∨ (0xd800 ≤ r ∧ r ≤ 0xdfff) then [0xef, 0xbf, 0xbd]
  else if r ≤ 0xffff then [0xe0 + r / 4096, 0x80 + r / 64 % 64, 0x80 + r % 64]
  else [0xf0 + r / 262144, 0x80 + r / 4096 % 64, 0x80 + r / 64 % 64, 0x80 + r % 64]

/-- Go `utf8.RuneLen`: the byte length of a rune's UTF-8 encoding, `-1` for
surrogates and out-of-range values. -/
def utf8RuneLen (r : Nat) : Int :=
  if r ≤ 0x7f then 1
  else if r ≤ 0x7ff then 2
  else if 0xd800 ≤ r ∧ r ≤ 0xdfff then -1
  else if r ≤ 0xffff then 3
  else if r ≤ 0x10ffff then 4
  else -1

/-- `simpleEncoding`: a one-byte encoding with its base name, the
authoritative `decode` map (byte to rune) and the inverted `encode` map
(rune to byte). -/
structure simpleEncoding where
  baseName : String
  encode : GoMap
  decode : GoMap
deriving DecidableEq, Repr

/-- The inversion loop of `newSimpleEncoderFromMap`:
`for b, r := range se.decode { se.encode[r] = b }`, in iteration order,
last write wins. -/
def invertMap (decode : GoMap) : GoMap :=
  decode.foldl (fun e p => mapInsert e p.2 p.1) []

/-- `newSimpleEncoderFromMap`: stores `encoding` as `decode` and builds
`encode` by inversion. -/
def newSimpleEncoderFromMap (name : String) (encoding : GoMap) : simpleEncoding :=
  { baseName := name, decode := encoding, encode := invertMap encoding }

/-- `simpleEncoding.RuneToCharcode`: `b, ok := enc.encode[r]`; the zero
value `0` is returned with `ok = false` on a miss. -/
def simpleEncoding.RuneToCharcode (enc : simpleEncoding) (r : Nat) : Nat × Bool :=
  match lookupList enc.encode r with
  | some b => (b, true)
  | none => (0, false)

/-- `simpleEncoding.CharcodeToRune`: codes above `0xff` yield
`(MissingCodeRune, false)`; otherwise the byte is looked up in `decode`,
a miss yielding the zero rune with `ok = false`. -/
def simpleEncoding.CharcodeToRune (enc : simpleEncoding) (code : Nat) : Nat × Bool :=
  if 0xff < code then (MissingCodeRune, false)
  else
    match lookupList enc.decode code with
    | some r => (r, true)
    | none => (0, false)

/-- `simpleEncoding.Charcodes`: the keys of `decode`, sorted ascending
(`sort.Slice` with a `<` comparator; keys are distinct, so any correct
comparison sort yields the same strictly ascending list). -/
def simpleEncoding.Charcodes (enc : simpleEncoding) : List Nat :=
  List.insertionSort (· ≤ ·) (enc.decode.map Prod.fst)

/-- `simpleEncoding.BaseName`. -/
def simpleEncoding.BaseName (enc : simpleEncoding) : String :=
  enc.baseName

/-- `simpleDecoder.Transform`: consume one source byte at a time, resolve
it through the decode map (falling back to `MissingCodeRune`), and append
the rune's UTF-8 encoding to the destination, stopping with `ErrShortDst`
when `utf8.RuneLen` exceeds the remaining destination room. Returns the
bytes written, the count of source bytes consumed, and the error. The
`atEOF` flag is ignored, as in the source. -/
def decTransform (m : GoMap) (dstCap : Nat) : List Nat → Bool → List Nat × Nat × Option TErr
  | [], _ => ([], 0, none)
  | b :: rest, atEOF =>
    let r := (lookupList m b).getD MissingCodeRune
    if (dstCap : Int) < utf8RuneLen r then ([], 0, some .shortDst)
    else
      let u := utf8EncodeRune r
      let res := decTransform m (dstCap - u.length) rest atEOF
      (u ++ res.1, res.2.1 + 1, res.2.2)

/-- `simpleEncoder.Transform`: while source remains, report `ErrShortSrc`
if the source does not start with a full UTF-8 rune and `atEOF` is false,
report `ErrShortDst` if the destination is full, otherwise decode one rune
(substituting `MissingCodeRune` for `utf8.RuneError`), emit its code (the
code of `MissingCodeRune`, or the zero byte, when unmapped) and continue. -/
def encTransform (m : GoMap) (dstCap : Nat) (src : List Nat) (atEOF : Bool) :
    List Nat × Nat × Option TErr :=
  if hs : src = [] then ([], 0, none)
  else
    if utf8FullRune src = false ∧ atEOF = false then ([], 0, some .shortSrc)
    else if dstCap = 0 then ([], 0, some .shortDst)
    else
      let p := utf8DecodeRune src
      let r := if p.1 = runeError then MissingCodeRune else p.1
      let b := (lookupList m r).getD ((lookupList m MissingCodeRune).getD 0)
      let res := encTransform m (dstCap - 1) (src.drop p.2) atEOF
      (b :: res.1, p.2 + res.2.1, res.2.2)
termination_by src.length
decreasing_by
  have h1 : 1 ≤ (utf8DecodeRune src).2 := by
    rcases src with _ | ⟨b, rest⟩
    · exact absurd rfl hs
    · unfold utf8DecodeRune
      cases h : utf8First b <;> simp only [h]
      · simp
      · simp
      · repeat' split
        all_goals simp
  have h2 : 0 < src.length := List.length_pos.mpr hs
  simp only [List.length_drop]
  omega

/-- `encTransform` with an unbounded destination: the behaviour of the
encode transform whenever the destination has room for every output byte
(one byte per consumed rune). -/
def encTU (m : GoMap) (src : List Nat) (atEOF : Bool) : List Nat × Nat × Option TErr :=
  if hs : src = [] then ([], 0, none)
  else
    if utf8FullRune src = false ∧ atEOF = false then ([], 0, some .shortSrc)
    else
      let p := utf8DecodeRune src
      let r := if p.1 = runeError then MissingCodeRune else p.1
      let b := (lookupList m r).getD ((lookupList m MissingCodeRune).getD 0)
      let res := encTU m (src.drop p.2) atEOF
      (b :: res.1, p.2 + res.2.1, res.2.2)
termination_by src.length
decreasing_by
  have h1 : 1 ≤ (utf8DecodeRune src).2 := by
    rcases src with _ | ⟨b, rest⟩
    · exact absurd rfl hs
    · unfold utf8DecodeRune
      cases h : utf8First b <;> simp only [h]
      · simp
      · simp
      · repeat' split
        all_goals simp
  have h2 : 0 < src.length := List.length_pos.mpr hs
  simp only [List.length_drop]
  omega

/-- A caller driving `encTransform` over a sequence of source chunks under
the transform protocol: each intermediate call passes `atEOF = false` and a
destination with room for the whole source, unconsumed source bytes are
prepended to the next chunk, and the final flush passes `atEOF = true`.
Returns the concatenated output and the total bytes consumed. -/
def encFeed (m : GoMap) (rem : List Nat) : List (List Nat) → List Nat × Nat
  | [] =>
    let res := encTransform m rem.length rem true
    (res.1, res.2.1)
  | c :: cs =>
    let src := rem ++ c
    let res := encTransform m src.length src false
    let rest := encFeed m (src.drop res.2.1) cs
    (res.1 ++ rest.1, res.2.1 + rest.2)

/-- The total decode function: each source byte, resolved through the map
(with the `MissingCodeRune` fallback), contributes its rune's UTF-8
encoding. -/
def decodeBytes (m : GoMap) (src : List Nat) : List Nat :=
  (src.map (fun b => utf8EncodeRune ((lookupList m b).getD MissingCodeRune))).flatten

/-- The fragment of the `core` PDF object model this module serializes
into: names, integers, arrays, dictionaries (key order preserved), and
indirect objects. -/
inductive PdfObject where
  | name : String → PdfObject
  | integer : Int → PdfObject
  | arr : List PdfObject → PdfObject
  | dict : List (String × PdfObject) → PdfObject
  | indirect : PdfObject → PdfObject
deriving Repr

/-- Modelled from the spec: `baseWinAnsi` is declared outside this file;
it is the WinAnsi base-encoding name referenced by `ToPdfObject`. -/
def baseWinAnsi : String := "WinAnsiEncoding"

/-- Helper for `toFontDifferences`: emits the starting code before each
run of consecutive codes, then the glyph names. -/
def diffRuns : Option Nat → List (Nat × String) → List PdfObject
  | _, [] => []
  | prev, (c, g) :: t =>
    if prev = some c then .name g :: diffRuns (some (c + 1)) t
    else .integer c :: .name g :: diffRuns (some (c + 1)) t

/-- Modelled from the spec: `toFontDifferences` is declared outside this
file. It renders a differences map as the conventional alternating array —
a starting code number followed by the glyph names assigned to consecutive
codes from that number; the empty (or nil) map yields the empty array. -/
def toFontDifferences (differences : List (Nat × String)) : PdfObject :=
  .arr (diffRuns none (List.insertionSort (fun a b => a.1 ≤ b.1) differences))

/-- `simpleEncoding.ToPdfObject`: a bare name for the recognized intrinsic
base names, otherwise an indirect dictionary with `Type`, `BaseEncoding`
and a `Differences` entry serialized from the nil map. -/
def ToPdfObject (enc : simpleEncoding) : PdfObject :=
  if enc.baseName = "MacRomanEncoding" ∨ enc.baseName = "MacExpertEncoding" ∨
      enc.baseName = baseWinAnsi then
    .name enc.baseName
  else
    .indirect (.dict
      [("Type", .name "Encoding"),
       ("BaseEncoding", .name enc.baseName),
       ("Differences", toFontDifferences [])])

/-- Modelled from the spec: `ApplyDifferences` (the DifferenceOverlay) is
declared outside this file. It produces a new map whose `decode` equals the
base `decode` with every difference key replaced by the rune resolved from
its glyph name (unresolvable names are skipped), rebuilds `encode` by
inversion, and preserves `baseName`. `gtr` is the GlyphTable lookup
`GlyphToRune`. -/
def ApplyDifferences (gtr : String → Option Nat) (base : simpleEncoding)
    (differences : List (Nat × String)) : simpleEncoding :=
  let newDecode := differences.foldl
    (fun acc p =>
      match gtr p.2 with
      | none => acc
      | some r => mapInsert acc p.1 r)
    base.decode
  { baseName := base.baseName, decode := newDecode, encode := invertMap newDecode }

/-- The construction loop of `NewCustomSimpleTextEncoder`: resolve each
glyph name through the GlyphTable, skipping unresolvable names, and store
the rune under `byte(code)`. -/
def buildBase (gtr : String → Option Nat) (encoding : List (Nat × String)) : GoMap :=
  encoding.foldl
    (fun acc p =>
      match gtr p.2 with
      | none => acc
      | some r => mapInsert acc (p.1 % 256) r)
    []

/-- `NewCustomSimpleTextEncoder`: errors on an empty encoding map,
otherwise builds a `simpleEncoding` named `custom` from the resolvable
entries and applies the differences when non-empty. `gtr` is the
GlyphTable lookup `GlyphToRune`, an external collaborator. -/
def NewCustomSimpleTextEncoder (gtr : String → Option Nat)
    (encoding differences : List (Nat × String)) : Except String simpleEncoding :=
  if encoding.length = 0 then .error "empty custom encoding"
  else
    let enc := newSimpleEncoderFromMap "custom" (buildBase gtr encoding)
    if differences.length ≠ 0 then .ok (ApplyDifferences gtr enc differences)
    else .ok enc

/-- `simpleEncodings["MacRomanEncoding"]`: the MacRomanEncoding base
table from the source, as an association list in key order. -/
def macRomanEncoding : GoMap := [
  (0x01, 0x0001), (0x02, 0x0002), (0x03, 0x0003), (0x04, 0x0004), (0x05, 0x0005),
  (0x06, 0x0006), (0x07, 0x0007), (0x08, 0x0008), (0x09, 0x0009), (0x0a, 0x000a),
  (0x0b, 0x000b), (0x0c, 0x000c), (0x0d, 0x000d), (0x0e, 0x000e), (0x0f, 0x000f),
  (0x10, 0x0010), (0x11, 0x0011), (0x12, 0x0012), (0x13, 0x0013), (0x14, 0x0014),
  (0x15, 0x0015), (0x16, 0x0016), (0x17, 0x0017), (0x18, 0x0018), (0x19, 0x0019),
  (0x1a, 0x001a), (0x1b, 0x001b), (0x1c, 0x001c), (0x1d, 0x001d), (0x1e, 0x001e),
  (0x1f, 0x001f), (0x20, 0x0020), (0x21, 0x0021), (0x22, 0x0022), (0x23, 0x0023),
  (0x24, 0x0024), (0x25, 0x0025), (0x26, 0x0026), (0x27, 0x0027), (0x28, 0x0028),
  (0x29, 0x0029), (0x2a, 0x002a), (0x2b, 0x002b), (0x2c, 0x002c), (0x2d, 0x002d),
  (0x2e, 0x002e), (0x2f, 0x002f), (0x30, 0x0030), (0x31, 0x0031), (0x32, 0x0032),
  (0x33, 0x0033), (0x34, 0x0034), (0x35, 0x0035), (0x36, 0x0036), (0x37, 0x0037),
  (0x38, 0x0038), (0x39, 0x0039), (0x3a, 0x003a), (0x3b, 0x003b), (0x3c, 0x003c),
  (0x3d, 0x003d), (0x3e, 0x003e), (0x3f, 0x003f), (0x40, 0x0040), (0x41, 0x0041),
  (0x42, 0x0042), (0x43, 0x0043), (0x44, 0x0044), (0x45, 0x0045), (0x46, 0x0046),
  (0x47, 0x0047), (0x48, 0x0048), (0x49, 0x0049), (0x4a, 0x004a), (0x4b, 0x004b),
  (0x4c, 0x004c), (0x4d, 0x004d), (0x4e, 0x004e), (0x4f, 0x004f), (0x50, 0x0050),
  (0x51, 0x0051), (0x52, 0x0052), (0x53, 0x0053), (0x54, 0x0054), (0x55, 0x0055),
  (0x56, 0x0056), (0x57, 0x0057), (0x58, 0x0058), (0x59, 0x0059), (0x5a, 0x005a),
  (0x5b, 0x005b), (0x5c, 0x005c), (0x5d, 0x005d), (0x5e, 0x005e), (0x5f, 0x005f),
  (0x60, 0x0060), (0x61, 0x0061), (0x62, 0x0062), (0x63, 0x0063), (0x64, 0x0064),
  (0x65, 0x0065), (0x66, 0x0066), (0x67, 0x0067), (0x68, 0x0068), (0x69, 0x0069),
  (0x6a, 0x006a), (0x6b, 0x006b), (0x6c, 0x006c), (0x6d, 0x006d), (0x6e, 0x006e),
  (0x6f, 0x006f), (0x70, 0x0070), (0x71, 0x0071), (0x72, 0x0072), (0x73, 0x0073),
  (0x74, 0x0074), (0x75, 0x0075), (0x76, 0x0076), (0x77, 0x0077), (0x78, 0x0078),
  (0x79, 0x0079), (0x7a, 0x007a), (0x7b, 0x007b), (0x7c, 0x007c), (0x7d, 0x007d),
  (0x7e, 0x007e), (0x7f, 0x007f), (0x80, 0x00c4), (0x81, 0x00c5), (0x82, 0x00c7),
  (0x83, 0x00c9), (0x84, 0x00d1), (0x85, 0x00d6), (0x86, 0x00dc), (0x87, 0x00e1),
  (0x88, 0x00e0), (0x89, 0x00e2), (0x8a, 0x00e4), (0x8b, 0x00e3), (0x8c, 0x00e5),
  (0x8d, 0x00e7), (0x8e, 0x00e9), (0x8f, 0x00e8), (0x90, 0x00ea), (0x91, 0x00eb),
  (0x92, 0x00ed), (0x93, 0x00ec), (0x94, 0x00ee), (0x95, 0x00ef), (0x96, 0x00f1),
  (0x97, 0x00f3), (0x98, 0x00f2), (0x99, 0x00f4), (0x9a, 0x00f6), (0x9b, 0x00f5),
  (0x9c, 0x00fa), (0x9d, 0x00f9), (0x9e, 0x00fb), (0x9f, 0x00fc), (0xa0, 0x2020),
  (0xa1, 0x00b0), (0xa2, 0x00a2), (0xa3, 0x00a3), (0xa4, 0x00a7), (0xa5, 0x2022),
  (0xa6, 0x00b6), (0xa7, 0x00df), (0xa8, 0x00ae), (0xa9, 0x00a9), (0xaa, 0x2122),
  (0xab, 0x00b4), (0xac, 0x00a8), (0xad, 0x2260), (0xae, 0x00c6), (0xaf, 0x00d8),
  (0xb0, 0x221e), (0xb1, 0x00b1), (0xb2, 0x2264), (0xb3, 0x2265), (0xb4, 0x00a5),
  (0xb5, 0x00b5), (0xb6, 0x2202), (0xb7, 0x2211), (0xb8, 0x220f), (0xb9, 0x03c0),
  (0xba, 0x222b), (0xbb, 0x00aa), (0xbc, 0x00ba), (0xbd, 0x03a9), (0xbe, 0x00e6),
  (0xbf, 0x00f8), (0xc0, 0x00bf), (0xc1, 0x00a1), (0xc2, 0x00ac), (0xc3, 0x221a),
  (0xc4, 0x0192), (0xc5, 0x2248), (0xc6, 0x2206), (0xc7, 0x00ab), (0xc8, 0x00bb),
  (0xc9, 0x2026), (0xca, 0x00a0), (0xcb, 0x00c0), (0xcc, 0x00c3), (0xcd, 0x00d5),
  (0xce, 0x0152), (0xcf, 0x0153), (0xd0, 0x2013), (0xd1, 0x2014), (0xd2, 0x201c),
  (0xd3, 0x201d), (0xd4, 0x2018), (0xd5, 0x2019), (0xd6, 0x00f7), (0xd7, 0x25ca),
  (0xd8, 0x00ff), (0xd9, 0x0178), (0xda, 0x2044), (0xdb, 0x20ac), (0xdc, 0x2039),
  (0xdd, 0x203a), (0xde, 0xfb01), (0xdf, 0xfb02), (0xe0, 0x2021), (0xe1, 0x00b7),
  (0xe2, 0x201a), (0xe3, 0x201e), (0xe4, 0x2030), (0xe5, 0x00c2), (0xe6, 0x00ca),
  (0xe7, 0x00c1), (0xe8, 0x00cb), (0xe9, 0x00c8), (0xea, 0x00cd), (0xeb, 0x00ce),
  (0xec, 0x00cf), (0xed, 0x00cc), (0xee, 0x00d3), (0xef, 0x00d4), (0xf0, 0xf8ff),
  (0xf1, 0x00d2), (0xf2, 0x00da), (0xf3, 0x00db), (0xf4, 0x00d9), (0xf5, 0x0131),
  (0xf6, 0x02c6), (0xf7, 0x02dc), (0xf8, 0x00af), (0xf9, 0x02d8), (0xfa, 0x02d9),
  (0xfb, 0x02da), (0xfc, 0x00b8), (0xfd, 0x02dd), (0xfe, 0x02db), (0xff, 0x02c7)]


/-- The per-step rune resolution of `simpleEncoder.Transform`: the rune
decoded from the head of the source, with `utf8.RuneError` replaced by
`MissingCodeRune` rather than raising an error. -/
def encStepRune (src : List Nat) : Nat :=
  if (utf8DecodeRune src).1 = runeError then MissingCodeRune else (utf8DecodeRune src).1

/-- The per-step output byte of `simpleEncoder.Transform`: the code for the
resolved rune; when unmapped, the code mapped to `MissingCodeRune`, or the
zero byte when that too is absent. -/
def encStepByte (m : GoMap) (src : List Nat) : Nat :=
  (lookupList m (encStepRune src)).getD ((lookupList m MissingCodeRune).getD 0)

/-! ### UTF-8 primitive lemmas -/

theorem utf8First_multi {b sz lo hi : Nat} (h : utf8First b = .multi sz lo hi) :
    2 ≤ sz ∧ sz ≤ 4 := by
  unfold utf8First at h
  repeat' split at h
  all_goals first
    | (injection h with h1 h2 h3; omega)
    | (cases h)

theorem utf8DecodeRune_size_pos (b : Nat) (rest : List Nat) :
    1 ≤ (utf8DecodeRune (b :: rest)).2 := by
  unfold utf8DecodeRune
  cases h : utf8First b <;> simp only [h]
  · simp
  · simp
  · repeat' split
    all_goals simp

theorem utf8DecodeRune_size_pos2 {p : List Nat} (h : ¬p = []) :
    1 ≤ (utf8DecodeRune p).2 := by
  match p, h with
  | b :: rest, _ => exact utf8DecodeRune_size_pos b rest

theorem utf8DecodeRune_size_le (b : Nat) (rest : List Nat) :
    (utf8DecodeRune (b :: rest)).2 ≤ (b :: rest).length := by
  unfold utf8DecodeRune
  cases h : utf8First b with
  | ascii => simp [h]
  | invalid => simp [h]
  | multi sz lo hi =>
    have hsz := utf8First_multi h
    simp only [h]
    repeat' split
    all_goals simp_all
    all_goals omega

theorem utf8EncodeRune_length_le (r : Nat) : (utf8EncodeRune r).length ≤ 4 := by
  unfold utf8EncodeRune
  repeat' split
  all_goals simp

theorem utf8RuneLen_le (r : Nat) : utf8RuneLen r ≤ 4 := by
  unfold utf8RuneLen
  repeat' split
  all_goals omega

/-! ### Association-list map lemmas -/

theorem lookup_mapInsert (m : GoMap) (k v x : Nat) :
    lookupList (mapInsert m k v) x = if x = k then some v else lookupList m x := by
  induction m with
  | nil => simp [mapInsert, lookupList]
  | cons p t ih =>
    obtain ⟨k0, v0⟩ := p
    by_cases hk : k = k0
    · subst hk
      by_cases hx : x = k <;> simp [mapInsert, lookupList, hx]
    · by_cases hx : x = k0
      · subst hx
        simp [mapInsert, lookupList, hk, Ne.symm hk]
      · simp [mapInsert, lookupList, hk, hx, ih]

theorem lookup_foldl_insert_mem (f : Nat × Nat → Nat × Nat) :
    ∀ (tbl : GoMap) (e : GoMap) (r c : Nat),
    lookupList (tbl.foldl (fun acc p => mapInsert acc (f p).1 (f p).2) e) r = some c →
    (∃ p ∈ tbl, f p = (r, c)) ∨ lookupList e r = some c
  | [], _, _, _, h => .inr h
  | p :: t, e, r, c, h => by
    rcases lookup_foldl_insert_mem f t (mapInsert e (f p).1 (f p).2) r c h with h1 | h1
    · obtain ⟨q, hq, hfq⟩ := h1
      exact .inl ⟨q, List.mem_cons_of_mem _ hq, hfq⟩
    · rw [lookup_mapInsert] at h1
      split at h1
      · rename_i hr
        refine .inl ⟨p, List.mem_cons_self _ _, ?_⟩
        cases h1
        rw [hr]
      · exact .inr h1

theorem lookup_invertMap_mem {tbl : GoMap} {r c : Nat}
    (h : lookupList (invertMap tbl) r = some c) : (c, r) ∈ tbl := by
  have h2 := lookup_foldl_insert_mem (fun p => (p.2, p.1)) tbl [] r c
  rcases h2 h with ⟨p, hp, hfp⟩ | h1
  · obtain ⟨c0, r0⟩ := p
    cases hfp
    exact hp
  · simp [lookupList] at h1

theorem lookup_of_mem_nodup : ∀ {l : GoMap} {k v : Nat},
    (k, v) ∈ l → (l.map Prod.fst).Nodup → lookupList l k = some v
  | (k0, v0) :: t, k, v, hm, hnd => by
    simp only [List.map_cons, List.nodup_cons] at hnd
    rcases List.mem_cons.mp hm with h | h
    · cases h
      simp [lookupList]
    · have hk : k ≠ k0 := by
        intro he
        subst he
        exact hnd.1 (List.mem_map.mpr ⟨(k, v), h, rfl⟩)
      simp only [lookupList, hk, if_neg hk]
      exact lookup_of_mem_nodup h hnd.2

theorem lookup_isSome_iff_mem_keys (l : GoMap) (k : Nat) :
    (lookupList l k).isSome = true ↔ k ∈ l.map Prod.fst := by
  induction l with
  | nil => simp [lookupList]
  | cons p t ih =>
    obtain ⟨k0, v0⟩ := p
    by_cases hk : k = k0
    · subst hk
      simp [lookupList]
    · simp [lookupList, hk, ih]

/-! ### Decode-transform lemmas -/

theorem decodeBytes_nil (m : GoMap) : decodeBytes m [] = [] := rfl

theorem decodeBytes_cons (m : GoMap) (b : Nat) (rest : List Nat) :
    decodeBytes m (b :: rest) =
      utf8EncodeRune ((lookupList m b).getD MissingCodeRune) ++ decodeBytes m rest := by
  simp [decodeBytes]

theorem decodeBytes_append (m : GoMap) (s t : List Nat) :
    decodeBytes m (s ++ t) = decodeBytes m s ++ decodeBytes m t := by
  simp [decodeBytes]

/-- With destination room for four bytes per source byte, the decode
transform consumes everything, writes `decodeBytes`, and reports no
error. -/
theorem decTransform_big (m : GoMap) :
    ∀ (src : List Nat) (cap : Nat) (eof : Bool), 4 * src.length ≤ cap →
    decTransform m cap src eof = (decodeBytes m src, src.length, none)
  | [], cap, eof, _ => by simp [decTransform, decodeBytes]
  | b :: rest, cap, eof, h => by
    have hr := utf8RuneLen_le ((lookupList m b).getD MissingCodeRune)
    have hlen := utf8EncodeRune_length_le ((lookupList m b).getD MissingCodeRune)
    simp only [List.length_cons] at h
    have hcap : ¬ ((cap : Int) < utf8RuneLen ((lookupList m b).getD MissingCodeRune)) := by
      omega
    have ih := decTransform_big m rest
      (cap - (utf8EncodeRune ((lookupList m b).getD MissingCodeRune)).length) eof (by omega)
    simp [decTransform, hcap, ih, decodeBytes_cons]

/-- Decoder short-destination states: the reported output and count are
exactly the accumulation of the fully processed prefix, and the failing
step itself consumed and wrote nothing, as resuming on the remaining
source with the remaining room shows. -/
theorem decTransform_shortDst (m : GoMap) :
    ∀ (src : List Nat) (cap : Nat) (eof : Bool) (out : List Nat) (n : Nat),
    decTransform m cap src eof = (out, n, some .shortDst) →
    out = decodeBytes m (src.take n) ∧ n < src.length ∧
      decTransform m (cap - out.length) (src.drop n) eof = ([], 0, some .shortDst)
  | [], cap, eof, out, n, h => by simp [decTransform] at h
  | b :: rest, cap, eof, out, n, h => by
    rw [decTransform] at h
    split at h
    · rename_i hshort
      injection h with ho h2
      injection h2 with hn hsig
      subst ho hn
      refine ⟨by simp [decodeBytes_nil], by simp, ?_⟩
      simp only [List.length_nil, Nat.sub_zero, List.drop_zero]
      rw [decTransform]
      simp only [hshort, if_pos]
    · rename_i hfit
      simp only at h
      injection h with ho h2
      injection h2 with hn hsig
      have hcall : decTransform m
          (cap - (utf8EncodeRune ((lookupList m b).getD MissingCodeRune)).length) rest eof
          = ((decTransform m
                (cap - (utf8EncodeRune ((lookupList m b).getD MissingCodeRune)).length) rest eof).1,
             (decTransform m
                (cap - (utf8EncodeRune ((lookupList m b).getD MissingCodeRune)).length) rest eof).2.1,
             some .shortDst) := by
        rw [← hsig]
      obtain ⟨ih1, ih2, ih3⟩ := decTransform_shortDst m rest _ eof _ _ hcall
      subst hn
      subst ho
      refine ⟨?_, ?_, ?_⟩
      · rw [List.take_succ_cons, decodeBytes_cons, ih1]
      · simp only [List.length_cons]
        omega
      · rw [List.drop_succ_cons]
        simp only [List.length_append]
        rw [← Nat.sub_sub]
        exact ih3

/-! ### UTF-8 boundary lemmas

`FullRune` is stable under appending more source, and once `FullRune`
holds, `DecodeRune` no longer depends on bytes beyond the buffer.
These two facts are what make the encoder's short-source protocol
resumable at arbitrary chunk boundaries. -/

theorem utf8FullRune_append (t u : List Nat) (h : utf8FullRune t = true) :
    utf8FullRune (t ++ u) = true := by
  match t with
  | [] => simp [utf8FullRune] at h
  | p0 :: rest =>
    rw [List.cons_append]
    rw [utf8FullRune] at h ⊢
    cases hc : utf8First p0 <;> simp only [hc] at h ⊢
    case multi sz lo hi =>
      simp only [List.length_cons, List.length_append] at h ⊢
      by_cases h1 : sz ≤ rest.length + 1
      · simp [show sz ≤ rest.length + u.length + 1 by omega]
      · rw [if_neg h1] at h
        by_cases h2 : sz ≤ rest.length + u.length + 1
        · simp [h2]
        · rw [if_neg h2]
          cases rest with
          | nil => simp at h
          | cons b1 rest2 =>
            simp only [List.cons_append] at h ⊢
            by_cases hb1 : b1 < lo ∨ hi < b1
            · simp [hb1]
            · simp only [if_neg hb1] at h ⊢
              cases rest2 with
              | nil => simp at h
              | cons b2 r3 =>
                simp only [List.cons_append] at h ⊢
                by_cases hb2 : b2 < 0x80 ∨ 0xbf < b2
                · simp [hb2]
                · simp only [if_neg hb2] at h
                  simp at h

theorem utf8DecodeRune_append (t u : List Nat) (h : utf8FullRune t = true) :
    utf8DecodeRune (t ++ u) = utf8DecodeRune t := by
  match t with
  | [] => simp [utf8FullRune] at h
  | p0 :: rest =>
    rw [List.cons_append]
    rw [utf8FullRune] at h
    rw [utf8DecodeRune, utf8DecodeRune]
    cases hc : utf8First p0 <;> simp only [hc] at h ⊢
    case multi sz lo hi =>
      obtain ⟨hsz2, hsz4⟩ := utf8First_multi hc
      simp only [List.length_cons, List.length_append] at h ⊢
      by_cases hA : rest.length + 1 < sz
      · -- the buffer is shorter than the declared size: `t` decodes to
        -- `(RuneError, 1)`, and `FullRune` must have seen an invalid
        -- continuation byte, which also fails in the extended buffer
        rw [if_pos hA]
        rw [if_neg (by omega : ¬ sz ≤ rest.length + 1)] at h
        cases rest with
        | nil => simp at h
        | cons b1 rest2 =>
          simp only [List.cons_append] at h ⊢
          simp only [List.length_cons] at hA ⊢
          by_cases hlen2 : rest2.length + 1 + u.length + 1 < sz
          · rw [if_pos (by omega : rest2.length + 1 + u.length + 1 < sz)]
          · rw [if_neg (by omega : ¬ rest2.length + 1 + u.length + 1 < sz)]
            simp only [List.getD_cons_zero]
            by_cases hb1 : b1 < lo ∨ hi < b1
            · rw [if_pos hb1]
            · rw [if_neg hb1] at h ⊢
              cases rest2 with
              | nil => simp at h
              | cons b2 r3 =>
                have hb2 : b2 < 0x80 ∨ 0xbf < b2 := by
                  by_cases hb2 : b2 < 0x80 ∨ 0xbf < b2
                  · exact hb2
                  · simp only [if_neg hb2] at h
                    simp at h
                simp only [List.length_cons] at hA
                rw [if_neg (by omega : ¬ sz ≤ 2)]
                simp only [List.cons_append, List.getD_cons_succ, List.getD_cons_zero]
                rw [if_pos hb2]
      · -- at least `sz` bytes are present: the decoder reads only those
        rw [if_neg hA, if_neg (by omega : ¬ rest.length + u.length + 1 < sz)]
        cases rest with
        | nil =>
          exfalso
          simp only [List.length_nil] at hA
          omega
        | cons b1 rest2 =>
          simp only [List.cons_append, List.getD_cons_zero]
          by_cases hb1 : b1 < lo ∨ hi < b1
          · rw [if_pos hb1, if_pos hb1]
          · rw [if_neg hb1, if_neg hb1]
            by_cases hs2 : sz ≤ 2
            · rw [if_pos hs2, if_pos hs2]
            · rw [if_neg hs2, if_neg hs2]
              simp only [List.length_cons] at hA
              cases rest2 with
              | nil =>
                exfalso
                simp only [List.length_nil] at hA
                omega
              | cons b2 r3 =>
                simp only [List.cons_append, List.getD_cons_succ, List.getD_cons_zero]
                by_cases hb2 : b2 < 0x80 ∨ 0xbf < b2
                · rw [if_pos hb2, if_pos hb2]
                · rw [if_neg hb2, if_neg hb2]
                  by_cases hs3 : sz ≤ 3
                  · rw [if_pos hs3, if_pos hs3]
                  · rw [if_neg hs3, if_neg hs3]
                    simp only [List.length_cons] at hA
                    cases r3 with
                    | nil =>
                      exfalso
                      simp only [List.length_nil] at hA
                      omega
                    | cons b3 r4 =>
                      simp only [List.cons_append, List.getD_cons_succ, List.getD_cons_zero]

/-! ### Encoder-transform unfolding lemmas -/

theorem encTransform_nil (m : GoMap) (cap : Nat) (eof : Bool) :
    encTransform m cap [] eof = ([], 0, none) := by
  rw [encTransform]
  rfl

theorem encTransform_shortSrc (m : GoMap) (cap : Nat) {src : List Nat} {eof : Bool}
    (hs : ¬ src = []) (hfr : utf8FullRune src = false ∧ eof = false) :
    encTransform m cap src eof = ([], 0, some .shortSrc) := by
  rw [encTransform, dif_neg hs, if_pos hfr]

theorem encTransform_shortDst0 (m : GoMap) {src : List Nat} {eof : Bool}
    (hs : ¬ src = []) (hfr : ¬ (utf8FullRune src = false ∧ eof = false)) :
    encTransform m 0 src eof = ([], 0, some .shortDst) := by
  rw [encTransform, dif_neg hs, if_neg hfr, if_pos rfl]

theorem encTransform_cons (m : GoMap) {cap : Nat} {src : List Nat} {eof : Bool}
    (hs : ¬ src = []) (hfr : ¬ (utf8FullRune src = false ∧ eof = false))
    (hcap : ¬ cap = 0) :
    encTransform m cap src eof =
      ((lookupList m (if (utf8DecodeRune src).1 = runeError then MissingCodeRune
          else (utf8DecodeRune src).1)).getD ((lookupList m MissingCodeRune).getD 0)
         :: (encTransform m (cap - 1) (src.drop (utf8DecodeRune src).2) eof).1,
       (utf8DecodeRune src).2
         + (encTransform m (cap - 1) (src.drop (utf8DecodeRune src).2) eof).2.1,
       (encTransform m (cap - 1) (src.drop (utf8DecodeRune src).2) eof).2.2) := by
  rw [encTransform, dif_neg hs, if_neg hfr, if_neg hcap]

theorem encTU_nil (m : GoMap) (eof : Bool) : encTU m [] eof = ([], 0, none) := by
  rw [encTU]
  rfl

theorem encTU_shortSrc (m : GoMap) {src : List Nat} {eof : Bool}
    (hs : ¬ src = []) (hfr : utf8FullRune src = false ∧ eof = false) :
    encTU m src eof = ([], 0, some .shortSrc) := by
  rw [encTU, dif_neg hs, if_pos hfr]

theorem encTU_cons (m : GoMap) {src : List Nat} {eof : Bool}
    (hs : ¬ src = []) (hfr : ¬ (utf8FullRune src = false ∧ eof = false)) :
    encTU m src eof =
      ((lookupList m (if (utf8DecodeRune src).1 = runeError then MissingCodeRune
          else (utf8DecodeRune src).1)).getD ((lookupList m MissingCodeRune).getD 0)
         :: (encTU m (src.drop (utf8DecodeRune src).2) eof).1,
       (utf8DecodeRune src).2 + (encTU m (src.drop (utf8DecodeRune src).2) eof).2.1,
       (encTU m (src.drop (utf8DecodeRune src).2) eof).2.2) := by
  rw [encTU, dif_neg hs, if_neg hfr]

/-- With destination room for one byte per source byte, the bounded
encode transform behaves as the unbounded one: the capacity never runs
out, because every consumed rune spans at least one source byte. -/
theorem encTransform_eq_encTU (m : GoMap) :
    ∀ (fuel : Nat) (src : List Nat) (cap : Nat) (eof : Bool),
      src.length ≤ fuel → src.length ≤ cap →
      encTransform m cap src eof = encTU m src eof
  | fuel, src, cap, eof, hf, hcap => by
    by_cases hs : src = []
    · subst hs
      rw [encTransform_nil, encTU_nil]
    · have hpos : 0 < src.length := List.length_pos.mpr hs
      by_cases hfr : utf8FullRune src = false ∧ eof = false
      · rw [encTransform_shortSrc m cap hs hfr, encTU_shortSrc m hs hfr]
      · have hk := utf8DecodeRune_size_pos2 hs
        have ihc := encTransform_eq_encTU m (fuel - 1)
          (src.drop (utf8DecodeRune src).2) (cap - 1) eof
          (by simp only [List.length_drop]; omega)
          (by simp only [List.length_drop]; omega)
        rw [encTransform_cons m hs hfr (by omega), encTU_cons m hs hfr, ihc]
termination_by fuel _ _ _ _ _ => fuel
decreasing_by omega

theorem drop_append_of_le {l1 l2 : List Nat} {n : Nat} (h : n ≤ l1.length) :
    (l1 ++ l2).drop n = l1.drop n ++ l2 := by
  rw [List.drop_append_eq_append_drop]
  simp [Nat.sub_eq_zero_of_le h]

/-- Chunk-boundary composition for the encode transform: processing
`t ++ u` in one go agrees with first processing `t` with `atEOF = false`
(which stops cleanly at a rune boundary, or consumes nothing on a
short-source) and then processing the unconsumed tail of `t` prepended
to `u`. -/
theorem encTU_append (m : GoMap) :
    ∀ (fuel : Nat) (t u : List Nat) (eof : Bool), t.length ≤ fuel →
    encTU m (t ++ u) eof =
      ((encTU m t false).1 ++ (encTU m (t.drop (encTU m t false).2.1 ++ u) eof).1,
       (encTU m t false).2.1 + (encTU m (t.drop (encTU m t false).2.1 ++ u) eof).2.1,
       (encTU m (t.drop (encTU m t false).2.1 ++ u) eof).2.2)
  | fuel, t, u, eof, hf => by
    by_cases ht : t = []
    · subst ht
      rw [encTU_nil]
      simp
    · have hpos : 0 < t.length := List.length_pos.mpr ht
      by_cases hfr : utf8FullRune t = true
      case neg =>
        have hchunk := encTU_shortSrc m ht ⟨by simpa using hfr, rfl⟩
        rw [hchunk]
        simp
      case pos =>
        have htu : ¬ (t ++ u) = [] := by simp [ht]
        have hfull2 := utf8FullRune_append t u hfr
        have hdec := utf8DecodeRune_append t u hfr
        have hk1 := utf8DecodeRune_size_pos2 ht
        have hkle : (utf8DecodeRune t).2 ≤ t.length := by
          match t, ht with
          | b :: rest, _ => exact utf8DecodeRune_size_le b rest
        have hdrop : (t ++ u).drop (utf8DecodeRune t).2
            = t.drop (utf8DecodeRune t).2 ++ u := drop_append_of_le hkle
        have ih := encTU_append m (fuel - 1) (t.drop (utf8DecodeRune t).2) u eof
          (by simp only [List.length_drop]; omega)
        rw [encTU_cons m htu (by simp [hfull2]), hdec, hdrop, ih]
        rw [encTU_cons m ht (by simp [hfr])]
        simp only [List.drop_drop, List.cons_append, Nat.add_assoc]
termination_by fuel _ _ _ _ => fuel
decreasing_by omega

/-- Driving the bounded encode transform chunk by chunk under the resume
protocol computes exactly the one-shot unbounded result on the
concatenated source. -/
theorem encFeed_eq (m : GoMap) :
    ∀ (cs : List (List Nat)) (rem : List Nat),
    encFeed m rem cs
      = ((encTU m (rem ++ cs.flatten) true).1, (encTU m (rem ++ cs.flatten) true).2.1)
  | [], rem => by
    rw [encFeed]
    rw [encTransform_eq_encTU m rem.length rem rem.length true le_rfl le_rfl]
    simp
  | c :: cs, rem => by
    rw [encFeed]
    have hbig := encTransform_eq_encTU m (rem ++ c).length (rem ++ c) (rem ++ c).length
      false le_rfl le_rfl
    have ih := encFeed_eq m cs ((rem ++ c).drop (encTransform m (rem ++ c).length (rem ++ c) false).2.1)
    have happ := encTU_append m (rem ++ c).length (rem ++ c) cs.flatten true le_rfl
    simp only [hbig] at ih ⊢
    rw [ih]
    simp only [List.flatten_cons, ← List.append_assoc]
    rw [happ]

/-- Inversion of an encode-transform short-source result: the failing
step saw an incomplete rune with `atEOF = false` and consumed nothing,
as resuming on the unconsumed source with the remaining room shows. -/
theorem encTransform_shortSrc_inv (m : GoMap) :
    ∀ (fuel : Nat) (src : List Nat) (cap : Nat) (out : List Nat) (n : Nat),
      src.length ≤ fuel →
      encTransform m cap src false = (out, n, some .shortSrc) →
      ¬ src.drop n = [] ∧ utf8FullRune (src.drop n) = false ∧
        encTransform m (cap - out.length) (src.drop n) false = ([], 0, some .shortSrc)
  | fuel, src, cap, out, n, hf, h => by
    by_cases hs : src = []
    · rw [hs, encTransform_nil] at h
      exact absurd h (by simp)
    · have hpos : 0 < src.length := List.length_pos.mpr hs
      by_cases hfr : utf8FullRune src = false ∧ (false : Bool) = false
      · rw [encTransform_shortSrc m cap hs hfr] at h
        injection h with ho h2
        injection h2 with hn hsig
        subst ho hn
        refine ⟨by simpa using hs, by simpa using hfr.1, ?_⟩
        simpa using encTransform_shortSrc m cap hs hfr
      · by_cases hcap : cap = 0
        · rw [hcap, encTransform_shortDst0 m hs hfr] at h
          injection h with ho h2
          injection h2 with hn hsig
          exact absurd hsig (by simp)
        · rw [encTransform_cons m hs hfr hcap] at h
          injection h with ho h2
          injection h2 with hn hsig
          have hk := utf8DecodeRune_size_pos2 hs
          have hcall : encTransform m (cap - 1) (src.drop (utf8DecodeRune src).2) false
              = ((encTransform m (cap - 1) (src.drop (utf8DecodeRune src).2) false).1,
                 (encTransform m (cap - 1) (src.drop (utf8DecodeRune src).2) false).2.1,
                 some .shortSrc) := by
            rw [← hsig]
          obtain ⟨ih1, ih2, ih3⟩ := encTransform_shortSrc_inv m (fuel - 1)
            (src.drop (utf8DecodeRune src).2) (cap - 1) _ _
            (by simp only [List.length_drop]; omega) hcall
          subst hn
          subst ho
          rw [List.drop_drop] at ih1 ih2 ih3
          refine ⟨ih1, ih2, ?_⟩
          simp only [List.length_cons]
          rw [show cap - ((encTransform m (cap - 1)
              (src.drop (utf8DecodeRune src).2) false).1.length + 1)
            = cap - 1 - (encTransform m (cap - 1)
              (src.drop (utf8DecodeRune src).2) false).1.length by omega]
          exact ih3
termination_by fuel _ _ _ _ _ _ => fuel
decreasing_by omega

/-- Inversion of an encode-transform short-destination result: the
destination was filled exactly (one byte per consumed rune), the failing
step stopped before consuming its (complete or at-EOF) rune, and it
consumed nothing, as resuming on the unconsumed source with an empty
destination shows. -/
theorem encTransform_shortDst_inv (m : GoMap) :
    ∀ (fuel : Nat) (src : List Nat) (cap : Nat) (eof : Bool) (out : List Nat) (n : Nat),
      src.length ≤ fuel →
      encTransform m cap src eof = (out, n, some .shortDst) →
      out.length = cap ∧ ¬ src.drop n = [] ∧
        ¬ (utf8FullRune (src.drop n) = false ∧ eof = false) ∧
        encTransform m 0 (src.drop n) eof = ([], 0, some .shortDst)
  | fuel, src, cap, eof, out, n, hf, h => by
    by_cases hs : src = []
    · rw [hs, encTransform_nil] at h
      exact absurd h (by simp)
    · have hpos : 0 < src.length := List.length_pos.mpr hs
      by_cases hfr : utf8FullRune src = false ∧ eof = false
      · rw [encTransform_shortSrc m cap hs hfr] at h
        injection h with ho h2
        injection h2 with hn hsig
        exact absurd hsig (by simp)
      · by_cases hcap : cap = 0
        · rw [hcap, encTransform_shortDst0 m hs hfr] at h
          injection h with ho h2
          injection h2 with hn hsig
          subst ho hn
          refine ⟨by simp [hcap], by simpa using hs, by simpa using hfr, ?_⟩
          simpa using encTransform_shortDst0 m hs hfr
        · rw [encTransform_cons m hs hfr hcap] at h
          injection h with ho h2
          injection h2 with hn hsig
          have hk := utf8DecodeRune_size_pos2 hs
          have hcall : encTransform m (cap - 1) (src.drop (utf8DecodeRune src).2) eof
              = ((encTransform m (cap - 1) (src.drop (utf8DecodeRune src).2) eof).1,
                 (encTransform m (cap - 1) (src.drop (utf8DecodeRune src).2) eof).2.1,
                 some .shortDst) := by
            rw [← hsig]
          obtain ⟨ih1, ih2, ih3, ih4⟩ := encTransform_shortDst_inv m (fuel - 1)
            (src.drop (utf8DecodeRune src).2) (cap - 1) eof _ _
            (by simp only [List.length_drop]; omega) hcall
          subst hn
          subst ho
          rw [List.drop_drop] at ih2 ih3 ih4
          refine ⟨?_, ih2, ih3, ih4⟩
          simp only [List.length_cons]
          omega
termination_by fuel _ _ _ _ _ _ _ => fuel
decreasing_by omega

/-- `decodeBytes` distributes over chunk flattening. -/
theorem decodeBytes_flatten (m : GoMap) :
    ∀ (chunks : List (List Nat)),
    decodeBytes m chunks.flatten = (chunks.map (decodeBytes m)).flatten
  | [] => rfl
  | c :: cs => by
    simp only [List.flatten_cons, List.map_cons, decodeBytes_append,
      decodeBytes_flatten m cs]

/-! ### Custom-encoder construction lemmas -/

theorem mem_snd_eq_of_nodup_fst :
    ∀ {l : List (Nat × String)} {c : Nat} {g1 g2 : String},
    (c, g1) ∈ l → (c, g2) ∈ l → (l.map Prod.fst).Nodup → g1 = g2
  | (k, v) :: t, c, g1, g2, h1, h2, hnd => by
    simp only [List.map_cons, List.nodup_cons] at hnd
    rcases List.mem_cons.mp h1 with e1 | m1
    · rcases List.mem_cons.mp h2 with e2 | m2
      · injection e1 with hk1 hv1
        injection e2 with hk2 hv2
        rw [hv1, hv2]
      · injection e1 with hk1 hv1
        subst hk1
        exact absurd (List.mem_map.mpr ⟨(c, g2), m2, rfl⟩) hnd.1
    · rcases List.mem_cons.mp h2 with e2 | m2
      · injection e2 with hk2 hv2
        subst hk2
        exact absurd (List.mem_map.mpr ⟨(c, g1), m1, rfl⟩) hnd.1
      · exact mem_snd_eq_of_nodup_fst m1 m2 hnd.2

theorem lookup_buildBase_aux (gtr : String → Option Nat) (code : Nat) :
    ∀ (tbl : List (Nat × String)) (acc : GoMap),
    (∀ p ∈ tbl, p.1 % 256 = code → gtr p.2 = none) →
    lookupList acc code = none →
    lookupList (tbl.foldl (fun acc p =>
      match gtr p.2 with
      | none => acc
      | some r => mapInsert acc (p.1 % 256) r) acc) code = none
  | [], _, _, hacc => hacc
  | p :: t, acc, htbl, hacc => by
    simp only [List.foldl_cons]
    cases hg : gtr p.2 with
    | none =>
      simp only [hg]
      exact lookup_buildBase_aux gtr code t acc
        (fun q hq => htbl q (List.mem_cons_of_mem _ hq)) hacc
    | some r =>
      simp only [hg]
      refine lookup_buildBase_aux gtr code t _
        (fun q hq => htbl q (List.mem_cons_of_mem _ hq)) ?_
      rw [lookup_mapInsert]
      split
      · rename_i he
        have hcontra := htbl p (List.mem_cons_self _ _) he.symm
        rw [hg] at hcontra
        exact absurd hcontra (by simp)
      · exact hacc

/-! ### Claim theorems -/

/-- C1 (counterexample): the claim says `CharcodeToRune` returns the zero
rune with `ok = false` for every code that is absent or above 255; but for
code 256 the source returns `MissingCodeRune` (U+FFFD), not rune 0. -/
theorem claim_C1_counterexample :
    (newSimpleEncoderFromMap "MacRomanEncoding" macRomanEncoding).CharcodeToRune 256
      ≠ (0, false) := by
  decide

/-- C1 (amended): `CharcodeToRune` returns `ok = false` for every absent or
out-of-range code; the rune is the zero value 0 for an in-range code absent
from the decode map, and `MissingCodeRune` (U+FFFD) for a code above 255. -/
theorem claim_C1 (enc : simpleEncoding) (code : Nat) :
    (code ≤ 0xff → lookupList enc.decode code = none →
      enc.CharcodeToRune code = (0, false))
    ∧ (0xff < code → enc.CharcodeToRune code = (MissingCodeRune, false)) := by
  constructor
  · intro hle hnone
    rw [simpleEncoding.CharcodeToRune, if_neg (by omega), hnone]
  · intro hgt
    rw [simpleEncoding.CharcodeToRune, if_pos hgt]

/-- Witness for C1 at concrete inputs: code 0 is absent from MacRoman and
yields `(0, false)`; code 256 yields `(MissingCodeRune, false)`. -/
theorem claim_C1_witness :
    (newSimpleEncoderFromMap "MacRomanEncoding" macRomanEncoding).CharcodeToRune 0
        = (0, false)
    ∧ (newSimpleEncoderFromMap "MacRomanEncoding" macRomanEncoding).CharcodeToRune 256
        = (MissingCodeRune, false) :=
  ⟨(claim_C1 (newSimpleEncoderFromMap "MacRomanEncoding" macRomanEncoding) 0).1
      (by decide) (by decide),
   (claim_C1 (newSimpleEncoderFromMap "MacRomanEncoding" macRomanEncoding) 256).2
      (by decide)⟩

/-- C2: whenever `ToPdfObject` emits a dictionary, its `Differences` entry
is the serialization of the empty differences map (the empty array),
independent of the encoder's contents and of any differences previously
applied via `ApplyDifferences`. -/
theorem claim_C2 :
    (∀ enc : simpleEncoding,
      ¬ (enc.baseName = "MacRomanEncoding" ∨ enc.baseName = "MacExpertEncoding" ∨
          enc.baseName = baseWinAnsi) →
      ToPdfObject enc = .indirect (.dict
        [("Type", .name "Encoding"), ("BaseEncoding", .name enc.baseName),
         ("Differences", toFontDifferences [])]))
    ∧ toFontDifferences [] = .arr []
    ∧ (∀ (gtr : String → Option Nat) (enc : simpleEncoding)
        (diffs : List (Nat × String)),
      ¬ (enc.baseName = "MacRomanEncoding" ∨ enc.baseName = "MacExpertEncoding" ∨
          enc.baseName = baseWinAnsi) →
      ToPdfObject (ApplyDifferences gtr enc diffs) = .indirect (.dict
        [("Type", .name "Encoding"), ("BaseEncoding", .name enc.baseName),
         ("Differences", toFontDifferences [])])) := by
  refine ⟨?_, rfl, ?_⟩
  · intro enc h
    rw [ToPdfObject, if_neg h]
  · intro gtr enc diffs h
    rw [ToPdfObject]
    rw [if_neg (by exact h)]
    rfl

/-- Witness for C2: a custom encoder with a non-empty map, and a
StandardEncoding encoder with a difference applied, both serialize an
empty `Differences` array. -/
theorem claim_C2_witness :
    ToPdfObject (⟨"custom", [(0x2019, 0x41)], [(0x41, 0x2019)]⟩ : simpleEncoding)
      = .indirect (.dict
        [("Type", .name "Encoding"), ("BaseEncoding", .name "custom"),
         ("Differences", toFontDifferences [])])
    ∧ ToPdfObject (ApplyDifferences (fun _ => some 0x41)
        (⟨"StandardEncoding", [], []⟩ : simpleEncoding) [(1, "A")])
      = .indirect (.dict
        [("Type", .name "Encoding"), ("BaseEncoding", .name "StandardEncoding"),
         ("Differences", toFontDifferences [])]) :=
  ⟨claim_C2.1 _ (by decide), claim_C2.2.2 (fun _ => some 0x41) _ [(1, "A")] (by decide)⟩

/-- C3: chunking invariance. Feeding any chunk split of a source buffer
through the decode transform (four destination bytes of room per source
byte) concatenates to the one-shot result with the same total consumed
count, and driving the encode transform chunk by chunk under the
short-source resume protocol (one destination byte of room per source
byte) equals the one-shot result as well. -/
theorem claim_C3 (dm em : GoMap) (chunks : List (List Nat)) :
    ((chunks.map (fun c => (decTransform dm (4 * c.length) c false).1)).flatten
        = (decTransform dm (4 * chunks.flatten.length) chunks.flatten true).1
      ∧ (chunks.map (fun c => (decTransform dm (4 * c.length) c false).2.1)).sum
        = (decTransform dm (4 * chunks.flatten.length) chunks.flatten true).2.1)
    ∧ encFeed em [] chunks
        = ((encTransform em chunks.flatten.length chunks.flatten true).1,
           (encTransform em chunks.flatten.length chunks.flatten true).2.1) := by
  have hmap : ∀ c : List Nat,
      decTransform dm (4 * c.length) c false = (decodeBytes dm c, c.length, none) :=
    fun c => decTransform_big dm c _ false le_rfl
  refine ⟨⟨?_, ?_⟩, ?_⟩
  · rw [decTransform_big dm chunks.flatten _ true le_rfl]
    simp only [hmap]
    exact (decodeBytes_flatten dm chunks).symm
  · rw [decTransform_big dm chunks.flatten _ true le_rfl]
    simp only [hmap]
    simp [List.length_flatten]
  · rw [encTransform_eq_encTU em chunks.flatten.length chunks.flatten
      chunks.flatten.length true le_rfl le_rfl]
    have h := encFeed_eq em chunks []
    simpa using h

/-- C4: when the UTF-8 encoding of the resolved rune does not fit in the
remaining destination, the decode transform stops with short-destination
having consumed and written nothing on the failed step (the reported
counts are the accumulation of the fully processed prefix, and resuming
on the rest reproduces the failure); concretely, under MacRomanEncoding,
decoding `[0x80, 0x81]` with 1 byte of room writes and consumes nothing,
while 2 bytes of room yield UTF-8 `C3 84` ("A-dieresis") and then resuming
yields `C3 85` ("A-ring"), and 4 bytes of room yield both at once. -/
theorem claim_C4 :
    (∀ (m : GoMap) (src : List Nat) (cap : Nat) (eof : Bool) (out : List Nat) (n : Nat),
      decTransform m cap src eof = (out, n, some .shortDst) →
      out = decodeBytes m (src.take n) ∧ n < src.length ∧
        decTransform m (cap - out.length) (src.drop n) eof = ([], 0, some .shortDst))
    ∧ decTransform macRomanEncoding 1 [0x80, 0x81] false = ([], 0, some .shortDst)
    ∧ decTransform macRomanEncoding 2 [0x80, 0x81] false
        = ([0xc3, 0x84], 1, some .shortDst)
    ∧ decTransform macRomanEncoding 2 [0x81] false = ([0xc3, 0x85], 1, none)
    ∧ decTransform macRomanEncoding 4 [0x80, 0x81] false
        = ([0xc3, 0x84, 0xc3, 0x85], 2, none) :=
  ⟨decTransform_shortDst, by decide, by decide, by decide, by decide⟩

/-- Witness for C4: the universal part applied to the concrete
short-destination run of `[0x80, 0x81]` with 1 byte of room. -/
theorem claim_C4_witness :
    ([] : List Nat) = decodeBytes macRomanEncoding []
    ∧ 0 < ([0x80, 0x81] : List Nat).length
    ∧ decTransform macRomanEncoding 1 [0x80, 0x81] false = ([], 0, some .shortDst) :=
  claim_C4.1 macRomanEncoding [0x80, 0x81] 1 false [] 0 (by decide)

/-- C5: for an encoder built by `newSimpleEncoderFromMap` (from a Go map,
so with distinct byte keys), whenever `RuneToCharcode` succeeds, the
returned code decodes back to the same rune via `CharcodeToRune`. -/
theorem claim_C5 (name : String) (tbl : GoMap)
    (hnd : (tbl.map Prod.fst).Nodup) (hbyte : ∀ p ∈ tbl, p.1 ≤ 0xff)
    (r c : Nat)
    (h : (newSimpleEncoderFromMap name tbl).RuneToCharcode r = (c, true)) :
    (newSimpleEncoderFromMap name tbl).CharcodeToRune c = (r, true) := by
  rw [simpleEncoding.RuneToCharcode] at h
  cases hl : lookupList (newSimpleEncoderFromMap name tbl).encode r with
  | none =>
    rw [hl] at h
    simp at h
  | some b =>
    rw [hl] at h
    injection h with hb hok
    subst hb
    have hmem : (b, r) ∈ tbl := lookup_invertMap_mem hl
    have hble : b ≤ 0xff := hbyte (b, r) hmem
    rw [simpleEncoding.CharcodeToRune, if_neg (by omega)]
    have hdec : lookupList (newSimpleEncoderFromMap name tbl).decode b = some r :=
      lookup_of_mem_nodup hmem hnd
    rw [hdec]

/-- Witness for C5: the single-entry map `{0x27 : 0x2019}` (quoteright in
StandardEncoding), where encoding the rune and decoding the code round
trips. -/
theorem claim_C5_witness :
    (newSimpleEncoderFromMap "StandardEncoding" [(0x27, 0x2019)]).CharcodeToRune 0x27
      = (0x2019, true) :=
  claim_C5 "StandardEncoding" [(0x27, 0x2019)] (by decide) (by decide) 0x2019 0x27
    (by decide)

/-- C6: an encode-transform short-source result arises only with
`atEOF = false` at an incomplete rune and consumes nothing on the failed
step (resuming on the unconsumed source reproduces it immediately), and a
short-destination result arises only with the destination filled exactly,
stopping before consuming the next rune, with the previously accumulated
counts reported. -/
theorem claim_C6 :
    (∀ (m : GoMap) (cap : Nat) (src out : List Nat) (n : Nat),
      encTransform m cap src false = (out, n, some .shortSrc) →
      ¬ src.drop n = [] ∧ utf8FullRune (src.drop n) = false ∧
        encTransform m (cap - out.length) (src.drop n) false = ([], 0, some .shortSrc))
    ∧ (∀ (m : GoMap) (cap : Nat) (src : List Nat) (eof : Bool) (out : List Nat) (n : Nat),
      encTransform m cap src eof = (out, n, some .shortDst) →
      out.length = cap ∧ ¬ src.drop n = [] ∧
        ¬ (utf8FullRune (src.drop n) = false ∧ eof = false) ∧
        encTransform m 0 (src.drop n) eof = ([], 0, some .shortDst)) :=
  ⟨fun m cap src out n h =>
      encTransform_shortSrc_inv m src.length src cap out n le_rfl h,
   fun m cap src eof out n h =>
      encTransform_shortDst_inv m src.length src cap eof out n le_rfl h⟩

/-- Witness for C6: a lone UTF-8 lead byte with `atEOF = false` gives
short-source consuming nothing; a full destination gives short-destination
before consuming anything. -/
theorem claim_C6_witness :
    (¬ ([0xc3] : List Nat) = [] ∧ utf8FullRune [0xc3] = false ∧
      encTransform [] 4 [0xc3] false = ([], 0, some .shortSrc))
    ∧ (([] : List Nat).length = 0 ∧ ¬ ([0x41] : List Nat) = [] ∧
      ¬ (utf8FullRune [0x41] = false ∧ true = false) ∧
      encTransform [] 0 [0x41] true = ([], 0, some .shortDst)) :=
  ⟨claim_C6.1 [] 4 [0xc3] [] 0
      (encTransform_shortSrc [] 4 (by decide) ⟨by decide, rfl⟩),
   claim_C6.2 [] 0 [0x41] true [] 0
      (encTransform_shortDst0 [] (by decide) (by decide))⟩

/-- C7: every consuming step of the encode transform writes exactly one
byte, computed as follows: the rune is decoded from the source with
`utf8.RuneError` (invalid UTF-8) replaced by `MissingCodeRune`; a rune
with no entry in the encode map falls back to the code for
`MissingCodeRune` when present, and to the zero byte otherwise. -/
theorem claim_C7 :
    (∀ (m : GoMap) (cap : Nat) (src : List Nat) (eof : Bool),
      ¬ src = [] → ¬ (utf8FullRune src = false ∧ eof = false) → ¬ cap = 0 →
      encTransform m cap src eof =
        (encStepByte m src
           :: (encTransform m (cap - 1) (src.drop (utf8DecodeRune src).2) eof).1,
         (utf8DecodeRune src).2
           + (encTransform m (cap - 1) (src.drop (utf8DecodeRune src).2) eof).2.1,
         (encTransform m (cap - 1) (src.drop (utf8DecodeRune src).2) eof).2.2))
    ∧ (∀ (m : GoMap) (src : List Nat), (utf8DecodeRune src).1 = runeError →
        encStepByte m src = (lookupList m MissingCodeRune).getD 0)
    ∧ (∀ (m : GoMap) (src : List Nat) (bb : Nat),
        lookupList m (encStepRune src) = none → lookupList m MissingCodeRune = some bb →
        encStepByte m src = bb)
    ∧ (∀ (m : GoMap) (src : List Nat),
        lookupList m (encStepRune src) = none → lookupList m MissingCodeRune = none →
        encStepByte m src = 0) := by
  refine ⟨?_, ?_, ?_, ?_⟩
  · intro m cap src eof hs hfr hcap
    exact encTransform_cons m hs hfr hcap
  · intro m src h
    rw [encStepByte, encStepRune, if_pos h]
    cases hl : lookupList m MissingCodeRune <;> simp [hl]
  · intro m src bb h1 h2
    rw [encStepByte, h1, h2]
    rfl
  · intro m src h1 h2
    rw [encStepByte, h1, h2]
    rfl

/-- Witness for C7: one step on `[0x41]` with the map `{0x41 : 0x21}`
writes exactly the byte 0x21; an invalid byte `[0x80]` under the empty
map resolves through `MissingCodeRune` to the zero byte. -/
theorem claim_C7_witness :
    encTransform [(0x41, 0x21)] 1 [0x41] true = ([0x21], 1, none)
    ∧ encStepByte [] [0x80] = 0 := by
  constructor
  · rw [claim_C7.1 [(0x41, 0x21)] 1 [0x41] true (by decide) (by decide) (by decide)]
    rw [show utf8DecodeRune [0x41] = (0x41, 1) from by decide]
    rw [show encStepByte [(0x41, 0x21)] [0x41] = 0x21 from by decide]
    simp only [List.drop_succ_cons, List.drop_zero]
    rw [encTransform_nil]
    rfl
  · exact claim_C7.2.1 [] [0x80] (by decide)

/-- C8: `NewCustomSimpleTextEncoder` errors exactly on an empty encoding
map; on any non-empty map it succeeds with base name the literal
"custom", and an entry whose glyph does not resolve through the
GlyphTable is skipped, its code absent from the result. -/
theorem claim_C8 :
    (∀ (gtr : String → Option Nat) (diffs : List (Nat × String)),
      NewCustomSimpleTextEncoder gtr [] diffs = .error "empty custom encoding")
    ∧ (∀ (gtr : String → Option Nat) (tbl diffs : List (Nat × String)),
      ¬ tbl = [] →
      ∃ e, NewCustomSimpleTextEncoder gtr tbl diffs = .ok e ∧ e.BaseName = "custom")
    ∧ (∀ (gtr : String → Option Nat) (tbl : List (Nat × String)) (code : Nat)
        (glyph : String) (e : simpleEncoding),
      (code, glyph) ∈ tbl → gtr glyph = none →
      (tbl.map Prod.fst).Nodup → (∀ p ∈ tbl, p.1 < 256) →
      NewCustomSimpleTextEncoder gtr tbl [] = .ok e →
      lookupList e.decode code = none) := by
  refine ⟨fun gtr diffs => rfl, ?_, ?_⟩
  · intro gtr tbl diffs ht
    rw [NewCustomSimpleTextEncoder]
    rw [if_neg (by simpa using ht)]
    by_cases hd : diffs.length ≠ 0
    · rw [if_pos hd]
      exact ⟨_, rfl, rfl⟩
    · rw [if_neg hd]
      exact ⟨_, rfl, rfl⟩
  · intro gtr tbl code glyph e hmem hg hnd hlt hok
    have ht : ¬ tbl = [] := by
      rintro rfl
      simp at hmem
    rw [NewCustomSimpleTextEncoder, if_neg (by simpa using ht),
      if_neg (by simp)] at hok
    injection hok with he
    rw [← he]
    refine lookup_buildBase_aux gtr code tbl [] ?_ rfl
    rintro ⟨p1, p2⟩ hp hpc
    have hp1 : p1 < 256 := hlt (p1, p2) hp
    have hpe : p1 = code := by
      rw [← hpc]
      exact (Nat.mod_eq_of_lt hp1).symm
    subst hpe
    have hpg : p2 = glyph := mem_snd_eq_of_nodup_fst hp hmem hnd
    rw [hpg]
    exact hg

/-- Witness for C8: a two-entry table where glyph "bogus" does not
resolve: construction succeeds, the base name is "custom", and code 2 is
absent from the result. -/
theorem claim_C8_witness :
    (∃ e, NewCustomSimpleTextEncoder
        (fun g => if g = "A" then some 0x41 else none) [(1, "A"), (2, "bogus")] []
          = .ok e ∧ e.BaseName = "custom")
    ∧ (∀ e : simpleEncoding,
        NewCustomSimpleTextEncoder
          (fun g => if g = "A" then some 0x41 else none) [(1, "A"), (2, "bogus")] []
            = .ok e →
        lookupList e.decode 2 = none) :=
  ⟨claim_C8.2.1 (fun g => if g = "A" then some 0x41 else none)
      [(1, "A"), (2, "bogus")] [] (by decide),
   fun e hok => claim_C8.2.2 (fun g => if g = "A" then some 0x41 else none)
      [(1, "A"), (2, "bogus")] 2 "bogus" e (by decide) (by decide) (by decide)
      (by decide) hok⟩

/-- C9: `Charcodes` returns a strictly ascending, duplicate-free sequence
whose members are exactly the keys of the decode map. -/
theorem claim_C9 (enc : simpleEncoding) (hnd : (enc.decode.map Prod.fst).Nodup) :
    List.Sorted (· < ·) enc.Charcodes ∧ enc.Charcodes.Nodup ∧
      ∀ c : Nat, c ∈ enc.Charcodes ↔ (lookupList enc.decode c).isSome = true := by
  have hperm : (List.insertionSort (· ≤ ·) (enc.decode.map Prod.fst)).Perm
      (enc.decode.map Prod.fst) := List.perm_insertionSort _ _
  have hsorted : List.Sorted (· ≤ ·)
      (List.insertionSort (· ≤ ·) (enc.decode.map Prod.fst)) :=
    List.sorted_insertionSort _ _
  have hnd2 : (List.insertionSort (· ≤ ·) (enc.decode.map Prod.fst)).Nodup :=
    hperm.nodup_iff.mpr hnd
  refine ⟨List.Sorted.lt_of_le hsorted hnd2, hnd2, ?_⟩
  intro c
  rw [simpleEncoding.Charcodes, hperm.mem_iff]
  exact (lookup_isSome_iff_mem_keys enc.decode c).symm

/-- Witness for C9 on a concrete two-entry decode map given in descending
key order. -/
theorem claim_C9_witness :
    List.Sorted (· < ·)
      (simpleEncoding.Charcodes (⟨"E", [], [(2, 10), (1, 20)]⟩ : simpleEncoding))
    ∧ (simpleEncoding.Charcodes (⟨"E", [], [(2, 10), (1, 20)]⟩ : simpleEncoding)).Nodup
    ∧ ∀ c : Nat,
        c ∈ simpleEncoding.Charcodes (⟨"E", [], [(2, 10), (1, 20)]⟩ : simpleEncoding)
          ↔ (lookupList [(2, 10), (1, 20)] c).isSome = true :=
  claim_C9 (⟨"E", [], [(2, 10), (1, 20)]⟩ : simpleEncoding) (by decide)

/-- C10: `ToPdfObject` returns a bare name exactly for the three intrinsic
base names (MacRoman, MacExpert, WinAnsi); every other base name —
StandardEncoding and "custom" included — yields an indirect dictionary
with `Type` = Encoding and `BaseEncoding` = the encoder's base name. -/
theorem claim_C10 (enc : simpleEncoding) :
    ((enc.baseName = "MacRomanEncoding" ∨ enc.baseName = "MacExpertEncoding" ∨
        enc.baseName = baseWinAnsi) →
      ToPdfObject enc = .name enc.baseName)
    ∧ (¬ (enc.baseName = "MacRomanEncoding" ∨ enc.baseName = "MacExpertEncoding" ∨
        enc.baseName = baseWinAnsi) →
      ToPdfObject enc = .indirect (.dict
        [("Type", .name "Encoding"), ("BaseEncoding", .name enc.baseName),
         ("Differences", toFontDifferences [])])) := by
  constructor
  · intro h
    rw [ToPdfObject, if_pos h]
  · intro h
    rw [ToPdfObject, if_neg h]

/-- Witness for C10: MacRomanEncoding and WinAnsiEncoding serialize as
bare names; StandardEncoding and "custom" serialize as dictionaries. -/
theorem claim_C10_witness :
    ToPdfObject (⟨"MacRomanEncoding", [], []⟩ : simpleEncoding)
        = .name "MacRomanEncoding"
    ∧ ToPdfObject (⟨"WinAnsiEncoding", [], []⟩ : simpleEncoding)
        = .name "WinAnsiEncoding"
    ∧ ToPdfObject (⟨"StandardEncoding", [], []⟩ : simpleEncoding)
        = .indirect (.dict
          [("Type", .name "Encoding"), ("BaseEncoding", .name "StandardEncoding"),
           ("Differences", toFontDifferences [])])
    ∧ ToPdfObject (⟨"custom", [], []⟩ : simpleEncoding)
        = .indirect (.dict
          [("Type", .name "Encoding"), ("BaseEncoding", .name "custom"),
           ("Differences", toFontDifferences [])]) :=
  ⟨(claim_C10 _).1 (by decide), (claim_C10 _).1 (by decide),
   (claim_C10 _).2 (by decide), (claim_C10 _).2 (by decide)⟩

end UniPdf
